import Mathlib

/-!
Verification of the post-retrieval time-series core of the repository
(`src/backend/src/timeseries.rs`, `src/backend/src/main.rs`).

Shallow embedding conventions:
* `chrono::DateTime<Utc>` is a totally ordered instant; it is modelled as `Int`
  (only comparisons are ever performed on timestamps).
* Rust `i32`/`i16` values are modelled as `Int`; wherever two's-complement
  wrap-around or masking matters it is written out explicitly (`% 65536`, clamps).
* `f64` payloads are modelled as `ℚ`: the core never performs float arithmetic
  on stored values except `f64::round()` during integer coercion, which is
  round-half-away-from-zero and is modelled exactly on rationals.
* Rust `Vec<T>` is `List T`; fallible parsing returns `Option`.
* `std::collections::HashMap` metadata fields are modelled as association lists;
  the aligner's `last_values: HashMap<String, Option<DataValue>>` keyed by tag
  name is modelled positionally (tag names are a unique key within a query, per
  the data-model invariant), with the unspecified `HashMap::values()` iteration
  order fixed to tag-position order.
-/

namespace TsCore

/-- `enum DataValue` from `timeseries.rs` (`Integer(i32) | Float(f64) | Text(String)`). -/
inductive DataValue : Type where
  | Integer : Int → DataValue
  | Float : ℚ → DataValue
  | Text : String → DataValue
deriving DecidableEq

/-- `enum DataQuality` from `timeseries.rs` (`Good(i16) | Bad(i16) | Unknown(i16)`). -/
inductive DataQuality : Type where
  | Good : Int → DataQuality
  | Bad : Int → DataQuality
  | Unknown : Int → DataQuality
deriving DecidableEq

/-- `struct Tag` from `timeseries.rs` (HashMaps modelled as association lists). -/
structure Tag : Type where
  name : String
  description : Option String
  format : Option String
  uom : Option String
  states : List (Int × String)
  fields : List (String × String)
deriving DecidableEq

/-- `struct DataPoint` from `timeseries.rs`. -/
structure DataPoint : Type where
  timestamp : Int
  value : Option DataValue
  quality : DataQuality
deriving DecidableEq

/-- `struct DataSeries` from `timeseries.rs`. -/
structure DataSeries : Type where
  tag : Tag
  data : List DataPoint
deriving DecidableEq

/-- Placeholder data point handed to total list indexing (`List.getD`);
every index the embedded code ever reads is proved in bounds, so the
placeholder is never actually selected. -/
def dfltDP : DataPoint := ⟨0, none, DataQuality.Good 0⟩

def dfltTag : Tag := ⟨"", none, none, none, [], []⟩

def dfltSeries : DataSeries := ⟨dfltTag, []⟩

/-- `Ord::cmp` on two totally ordered instants (`DateTime::cmp`). -/
def cmpInt (a b : Int) : Ordering :=
  if a < b then Ordering.lt else if b < a then Ordering.gt else Ordering.eq

/-- Timestamp of `data[i]` (total indexing used by the search loop). -/
def tsAt (l : List DataPoint) (i : Nat) : Int := (l.getD i dfltDP).timestamp

/-- One-step-per-fuel-unit unrolling of the `while max - min > 1` loop of
`DataSeries::get_value_at` (`timeseries.rs:64-78`), returning the final `min`
index.  `index` is `(min + max) / 2` both on entry to the loop and after each
iteration, so it is kept implicit.  On `Ordering::Equal` the source sets
`min = max = index`, after which the loop condition fails and
`data[min] = data[index]` is returned.  The fuel is an embedding artifact:
`searchGo_congr` below shows any fuel `≥ max - min` gives the same result, so
`searchLoop` (which supplies fuel `max - min`) is the unbounded loop. -/
def searchGo (ts : Nat → Int) (t : Int) : Nat → Nat → Nat → Nat
  | 0, min, _ => min
  | fuel + 1, min, max =>
    if max - min > 1 then
      let index := (min + max) / 2
      match cmpInt (ts index) t with
      | Ordering.lt => searchGo ts t fuel index max
      | Ordering.gt => searchGo ts t fuel min index
      | Ordering.eq => index
    else min

/-- The binary-search loop of `DataSeries::get_value_at`, with the fuel bound
`max - min` that `searchGo_congr` proves sufficient. -/
def searchLoop (ts : Nat → Int) (t : Int) (min max : Nat) : Nat :=
  searchGo ts t (max - min) min max

/-- `DataSeries::get_value_at` (`timeseries.rs:59-81`). -/
def get_value_at (s : DataSeries) (t : Int) : Option DataValue :=
  if s.data.isEmpty then none
  else (s.data.getD (searchLoop (tsAt s.data) t 0 (s.data.length - 1)) dfltDP).value

/-- Wrap an integer to the signed 16-bit range (two's complement `i16`). -/
def toI16 (z : Int) : Int := (z + 32768) % 65536 - 32768

/-- `i16` bitwise AND: both operands reduced to their 16 bit pattern,
the Nat-level AND of the patterns read back as an `i16`. -/
def i16and (a b : Int) : Int :=
  toI16 ((((a % 65536).toNat &&& (b % 65536).toNat : Nat)) : Int)

/-- The quality classification arm of `GetDataResponse::time_series`
(`main.rs:153-156`):
`match dp.quality { n if n & 0xC0 >= 0 => Good(n), _ => Bad(dp.quality) }`. -/
def classifyQuality (n : Int) : DataQuality :=
  if 0 ≤ i16and n 192 then DataQuality.Good n else DataQuality.Bad n

/-! ## Wire-side data model (`timebase.rs`) and integer coercion -/

/-- `enum TagValue` from `timebase.rs` (untagged wire value, already resolved). -/
inductive TagValue : Type where
  | Integer : Int → TagValue
  | Float : ℚ → TagValue
  | Text : String → TagValue
deriving DecidableEq

/-- `struct TagData` from `timebase.rs`. -/
structure TagData : Type where
  timestamp : Int
  value : Option TagValue
  quality : Int
deriving DecidableEq

/-- `struct Tag` from `timebase.rs` (wire-side tag metadata). -/
structure WireTag : Type where
  name : String
  description : Option String
  format : Option String
  uom : Option (List (Int × String))
  fields : Option (List (String × String))
  data_type : Option String
deriving DecidableEq

/-- `struct TagItem` from `timebase.rs`. -/
structure TagItem : Type where
  tag : WireTag
  data : List TagData
deriving DecidableEq

/-- `struct DataPoint2<T>` from `timeseries.rs`. -/
structure DataPoint2 (T : Type) : Type where
  timestamp : Int
  value : Option T
deriving DecidableEq

/-- Accumulate a run of decimal digits (`str::parse::<i32>` digit loop);
fails on the first non-digit character. -/
def digitsToNat (acc : Nat) : List Char → Option Nat
  | [] => some acc
  | c :: cs => if c.isDigit then digitsToNat (acc * 10 + (c.toNat - 48)) cs else none

/-- Rust `str::parse::<i32>`: optional leading `+`/`-`, then one or more
decimal digits, nothing else; errors (returns `none`) on an empty digit run,
a stray character, or a value outside the `i32` range. -/
def parseI32 (s : String) : Option Int :=
  match s.toList with
  | [] => none
  | c :: cs =>
    let neg : Bool := c = '-'
    let ds : List Char := if c = '-' ∨ c = '+' then cs else c :: cs
    match ds with
    | [] => none
    | _ :: _ =>
      match digitsToNat 0 ds with
      | none => none
      | some m =>
        let z : Int := if neg then -(m : Int) else (m : Int)
        if -2147483648 ≤ z ∧ z ≤ 2147483647 then some z else none

/-- `f64::round()`: round to the nearest integer, ties away from zero,
modelled exactly on `ℚ`.  For `q = n / d` (`d > 0`) with `n ≥ 0` this is
`⌊(2n + d) / 2d⌋`, and the negative case is by reflection; the integer
arithmetic keeps the definition kernel-computable. -/
def ratRound (q : ℚ) : Int :=
  if 0 ≤ q.num then (2 * q.num + (q.den : Int)) / (2 * (q.den : Int))
  else -((2 * (-q.num) + (q.den : Int)) / (2 * (q.den : Int)))

/-- Rust `as i32` cast of a (rounded) numeric value: saturating clamp to the
`i32` range. -/
def i32Sat (z : Int) : Int :=
  if z < -2147483648 then -2147483648
  else if z > 2147483647 then 2147483647
  else z

/-- The per-sample coercion of `impl From<&TagItem> for Vec<DataPoint2<i32>>`
(`timeseries.rs:100-117`): integers pass through, floats are `v.round() as i32`,
text is `v.parse::<i32>()` with parse failure becoming `None`, and a missing
value stays `None`. -/
def coerceI32 (v : Option TagValue) : Option Int :=
  match v with
  | none => none
  | some (TagValue.Integer v) => some v
  | some (TagValue.Float q) => some (i32Sat (ratRound q))
  | some (TagValue.Text s) => parseI32 s

/-- `impl From<&TagItem> for Vec<DataPoint2<i32>>` (`timeseries.rs:100-117`). -/
def tagItemToI32 (item : TagItem) : List (DataPoint2 Int) :=
  item.data.map (fun d => ⟨d.timestamp, coerceI32 d.value⟩)

/-! ## The stream aligner (`main.rs:63-91`) -/

/-- One row of the aligner's `data_table`: `(DateTime<Utc>, Vec<Option<DataValue>>)`.
The vector is indexed by tag position (see the `HashMap` modelling note above). -/
structure AlignedRow : Type where
  timestamp : Int
  values : List (Option DataValue)
deriving DecidableEq

/-- Flattening step of the aligner (`main.rs:63-68`): every series' samples
become `(tagIndex, sample)` pairs, series after series.  The source pairs each
sample with `&tag.tag`; since tag names are a unique key within a query the tag
is identified here by its position `i` in the request. -/
def flattenFrom (i : Nat) : List DataSeries → List (Nat × DataPoint)
  | [] => []
  | s :: ss => s.data.map (fun d => (i, d)) ++ flattenFrom (i + 1) ss

/-- Stable insertion by timestamp: a new element goes before the first
existing element with a timestamp `≥` its own, hence after every earlier
element with an equal timestamp. -/
def insertPair (p : Nat × DataPoint) : List (Nat × DataPoint) → List (Nat × DataPoint)
  | [] => [p]
  | q :: qs =>
    if p.2.timestamp ≤ q.2.timestamp then p :: q :: qs else q :: insertPair p qs

/-- `dp.sort_by_key(|&(_, d)| d.timestamp)` (`main.rs:70`): Rust's slice sort
is stable, and every stable sort by the same key yields the same list, so it
is modelled by stable insertion sort. -/
def sortPairs : List (Nat × DataPoint) → List (Nat × DataPoint)
  | [] => []
  | p :: ps => insertPair p (sortPairs ps)

/-- The body of the aligner sweep (`main.rs:80-91`) over one `(tagIndex, sample)`
pair, acting on the state `(data_table, timestamp, last_values)`:
if the pair's timestamp is strictly later than the pending timestamp, a row
`(pending, snapshot of last_values)` is appended; the pending timestamp then
becomes the pair's timestamp and the pair's value overwrites its tag's slot. -/
def alignLoop (st : List AlignedRow × Int × List (Option DataValue)) (p : Nat × DataPoint) :
    List AlignedRow × Int × List (Option DataValue) :=
  match st with
  | (rows, pending, current) =>
    ((if pending < p.2.timestamp then rows ++ [⟨pending, current⟩] else rows),
     p.2.timestamp,
     current.set p.1 p.2.value)

/-- The full aligner of `main.rs:63-91`: flatten, stable-sort by timestamp,
then sweep with the pending timestamp initialised to the query start and every
tag's last value initialised to absent. -/
def align (start : Int) (series : List DataSeries) : List AlignedRow :=
  ((sortPairs (flattenFrom 0 series)).foldl alignLoop
    ([], start, List.replicate series.length (none : Option DataValue))).1

end TsCore

namespace TsCore

/-! ## Facts about the binary-search loop -/

theorem cmpInt_eq_lt {a b : Int} (h : a < b) : cmpInt a b = Ordering.lt := by
  unfold cmpInt
  rw [if_pos h]

theorem cmpInt_eq_gt {a b : Int} (h : b < a) : cmpInt a b = Ordering.gt := by
  unfold cmpInt
  rw [if_neg (by omega), if_pos h]

theorem cmpInt_eq_eq {a b : Int} (h : a = b) : cmpInt a b = Ordering.eq := by
  unfold cmpInt
  rw [if_neg (by omega), if_neg (by omega)]

/-- Any two sufficient fuels give the loop the same result: the guard
`max - min > 1` always fails before `max - min` iterations have run. -/
theorem searchGo_congr (ts : Nat → Int) (t : Int) :
    ∀ f₁ f₂ min max, max - min ≤ f₁ → max - min ≤ f₂ →
      searchGo ts t f₁ min max = searchGo ts t f₂ min max := by
  intro f₁
  induction f₁ with
  | zero =>
    intro f₂ min max h1 h2
    cases f₂ with
    | zero => rfl
    | succ g =>
      show min = searchGo ts t (g + 1) min max
      simp only [searchGo]
      rw [if_neg (by omega)]
  | succ f ih =>
    intro f₂ min max h1 h2
    cases f₂ with
    | zero =>
      show searchGo ts t (f + 1) min max = min
      simp only [searchGo]
      rw [if_neg (by omega)]
    | succ g =>
      simp only [searchGo]
      by_cases hgt : max - min > 1
      · rw [if_pos hgt, if_pos hgt]
        cases hc : cmpInt (ts ((min + max) / 2)) t with
        | lt => exact ih g ((min + max) / 2) max (by omega) (by omega)
        | gt => exact ih g min ((min + max) / 2) (by omega) (by omega)
        | eq => rfl
      · rw [if_neg hgt, if_neg hgt]

/-- Unfolding equation of the loop: `searchLoop` satisfies exactly the
recurrence of the `while` loop in `get_value_at`. -/
theorem searchLoop_eq (ts : Nat → Int) (t : Int) (min max : Nat) :
    searchLoop ts t min max =
      if max - min > 1 then
        match cmpInt (ts ((min + max) / 2)) t with
        | Ordering.lt => searchLoop ts t ((min + max) / 2) max
        | Ordering.gt => searchLoop ts t min ((min + max) / 2)
        | Ordering.eq => (min + max) / 2
      else min := by
  unfold searchLoop
  by_cases hgt : max - min > 1
  · rw [if_pos hgt]
    have hd : max - min = (max - min - 1) + 1 := by omega
    rw [hd]
    simp only [searchGo]
    rw [if_pos hgt]
    cases hc : cmpInt (ts ((min + max) / 2)) t with
    | lt =>
      exact searchGo_congr ts t (max - min - 1) (max - (min + max) / 2)
        ((min + max) / 2) max (by omega) (by omega)
    | gt =>
      exact searchGo_congr ts t (max - min - 1) ((min + max) / 2 - min)
        min ((min + max) / 2) (by omega) (by omega)
    | eq => rfl
  · rw [if_neg hgt]
    have hd : max - min = 0 ∨ max - min = 1 := by omega
    rcases hd with hd | hd
    · rw [hd]
      rfl
    · rw [hd]
      simp only [searchGo]
      rw [if_neg hgt]

/-- If every timestamp in `[min, max]` is strictly later than `t`, the loop
never moves its lower bound: it returns `min`. -/
theorem searchGo_gt_all (ts : Nat → Int) (t : Int) :
    ∀ fuel min max, (∀ i, min ≤ i → i ≤ max → t < ts i) →
      searchGo ts t fuel min max = min := by
  intro fuel
  induction fuel with
  | zero => intro min max _; rfl
  | succ f ih =>
    intro min max h
    simp only [searchGo]
    by_cases hgt : max - min > 1
    · rw [if_pos hgt]
      have hlo : min ≤ (min + max) / 2 := by omega
      have hhi : (min + max) / 2 ≤ max := by omega
      rw [cmpInt_eq_gt (h _ hlo hhi)]
      exact ih min ((min + max) / 2) (fun i h1 h2 => h i h1 (le_trans h2 hhi))
    · rw [if_neg hgt]

theorem searchLoop_gt_all (ts : Nat → Int) (t : Int) (min max : Nat)
    (h : ∀ i, min ≤ i → i ≤ max → t < ts i) :
    searchLoop ts t min max = min :=
  searchGo_gt_all ts t (max - min) min max h

/-- The loop result never leaves the initial interval `[min, max]`. -/
theorem searchGo_bounds (ts : Nat → Int) (t : Int) :
    ∀ fuel min max, min ≤ max →
      min ≤ searchGo ts t fuel min max ∧ searchGo ts t fuel min max ≤ max := by
  intro fuel
  induction fuel with
  | zero => intro min max h; exact ⟨le_refl _, h⟩
  | succ f ih =>
    intro min max h
    simp only [searchGo]
    by_cases hgt : max - min > 1
    · rw [if_pos hgt]
      cases hc : cmpInt (ts ((min + max) / 2)) t with
      | lt =>
        dsimp only
        have h2 := ih ((min + max) / 2) max (by omega)
        omega
      | gt =>
        dsimp only
        have h2 := ih min ((min + max) / 2) (by omega)
        omega
      | eq =>
        dsimp only
        omega
    · rw [if_neg hgt]
      exact ⟨le_refl _, h⟩

end TsCore

namespace TsCore

/-- The TagSeries invariant from the data model: samples sorted ascending by
timestamp. -/
def sortedByTs (l : List DataPoint) : Prop :=
  List.Pairwise (fun a b => a.timestamp ≤ b.timestamp) l

instance (l : List DataPoint) : Decidable (sortedByTs l) := by
  unfold sortedByTs
  infer_instance

theorem tsAt_eq_getElem (l : List DataPoint) (i : Nat) (h : i < l.length) :
    tsAt l i = l[i].timestamp := by
  unfold tsAt
  rw [List.getD_eq_getElem?_getD, List.getElem?_eq_getElem h]
  rfl

/-- C5: `valueAt` on a non-empty ascending-sorted series with `t` strictly
before the first sample's timestamp returns the first sample's value
(clamp-low), not absent: every compared timestamp is `> t`, so the loop only
moves `max` down and the final `min` is still `0`. -/
theorem get_value_at_clamp_low (s : DataSeries) (t : Int) (d0 : DataPoint)
    (h0 : s.data.head? = some d0) (hs : sortedByTs s.data)
    (ht : t < d0.timestamp) :
    get_value_at s t = d0.value := by
  obtain ⟨tg, data⟩ := s
  cases data with
  | nil => simp at h0
  | cons a l =>
    obtain rfl : a = d0 := by simpa using h0
    show (if (a :: l).isEmpty then none
          else ((a :: l).getD (searchLoop (tsAt (a :: l)) t 0 ((a :: l).length - 1)) dfltDP).value) =
        a.value
    rw [if_neg (by simp)]
    rw [searchLoop_gt_all]
    · rfl
    · intro i _ hi
      have hlt : i < (a :: l).length := by
        simp only [List.length_cons] at hi ⊢
        omega
      rw [tsAt_eq_getElem _ _ hlt]
      rcases Nat.eq_zero_or_pos i with rfl | hpos
      · simpa using ht
      · have hs' : List.Pairwise (fun x y : DataPoint => x.timestamp ≤ y.timestamp)
            (a :: l) := hs
        have hrel := (List.pairwise_iff_getElem.mp hs') 0 i (by simp) hlt hpos
        have h00 : (a :: l)[0] = a := rfl
        rw [h00] at hrel
        omega

theorem get_value_at_clamp_low_witness :
    get_value_at ⟨dfltTag, [⟨10, some (DataValue.Integer 7), DataQuality.Good 192⟩,
                            ⟨20, some (DataValue.Integer 9), DataQuality.Good 192⟩]⟩ 3 =
      some (DataValue.Integer 7) :=
  get_value_at_clamp_low _ 3 ⟨10, some (DataValue.Integer 7), DataQuality.Good 192⟩
    rfl (by decide) (by decide)

/-- C7: `valueAt` on a series with no samples returns absent for every query
time, and (being a total function) raises no error. -/
theorem get_value_at_empty (tg : Tag) (t : Int) :
    get_value_at ⟨tg, []⟩ t = none := rfl

/-- C2 (code bug): the quality-classification arm of
`GetDataResponse::time_series` classifies every raw code as `Good`, because
`n & 0xC0` masks to bits 6-7 only and so is never negative: the guard
`n & 0xC0 >= 0` is always true and the `Bad`/`Unknown` outcomes the spec
assigns to field values 0, 1 and 2 are unreachable. -/
theorem classify_always_good (n : Int) : classifyQuality n = DataQuality.Good n := by
  have hx : ((n % 65536).toNat &&& (((192 : Int) % 65536)).toNat) ≤ 192 := by
    have h192 : (((192 : Int) % 65536)).toNat = 192 := by decide
    rw [h192]
    exact Nat.and_le_right
  have hpos : 0 ≤ i16and n 192 := by
    unfold i16and toI16
    omega
  unfold classifyQuality
  rw [if_pos hpos]

/-! ## C10: interval safety and termination of the search loop -/

/-- The sequence of `(min, max)` intervals the loop passes through, including
the state that first fails the guard (and, on an `Equal` hit, the
`min = max = index` state the source assigns before the guard fails). -/
def searchStatesGo (ts : Nat → Int) (t : Int) : Nat → Nat → Nat → List (Nat × Nat)
  | 0, min, max => [(min, max)]
  | fuel + 1, min, max =>
    (min, max) ::
      (if max - min > 1 then
        match cmpInt (ts ((min + max) / 2)) t with
        | Ordering.lt => searchStatesGo ts t fuel ((min + max) / 2) max
        | Ordering.gt => searchStatesGo ts t fuel min ((min + max) / 2)
        | Ordering.eq => [((min + max) / 2, (min + max) / 2)]
      else [])

/-- Interval states of one `get_value_at` search (fuel as in `searchLoop`). -/
def searchLoopStates (ts : Nat → Int) (t : Int) (min max : Nat) : List (Nat × Nat) :=
  searchStatesGo ts t (max - min) min max

theorem searchStatesGo_subinterval (ts : Nat → Int) (t : Int) :
    ∀ fuel min max, min ≤ max →
      ∀ s ∈ searchStatesGo ts t fuel min max, min ≤ s.1 ∧ s.1 ≤ s.2 ∧ s.2 ≤ max := by
  intro fuel
  induction fuel with
  | zero =>
    intro min max h s hmem
    simp only [searchStatesGo, List.mem_singleton] at hmem
    subst hmem
    exact ⟨le_refl _, h, le_refl _⟩
  | succ f ih =>
    intro min max h s hmem
    simp only [searchStatesGo, List.mem_cons] at hmem
    rcases hmem with rfl | hmem
    · exact ⟨le_refl _, h, le_refl _⟩
    · by_cases hgt : max - min > 1
      · rw [if_pos hgt] at hmem
        cases hc : cmpInt (ts ((min + max) / 2)) t
        all_goals simp only [hc] at hmem
        · have := ih ((min + max) / 2) max (by omega) s hmem
          omega
        · simp only [List.mem_singleton] at hmem
          subst hmem
          refine ⟨by omega, le_refl _, by omega⟩
        · have := ih min ((min + max) / 2) (by omega) s hmem
          omega
      · rw [if_neg hgt] at hmem
        simp at hmem

theorem searchStatesGo_shrinking (ts : Nat → Int) (t : Int) :
    ∀ fuel min max,
      List.Pairwise (fun a b : Nat × Nat => b.2 - b.1 < a.2 - a.1)
        (searchStatesGo ts t fuel min max) := by
  intro fuel
  induction fuel with
  | zero => intro min max; simp [searchStatesGo]
  | succ f ih =>
    intro min max
    simp only [searchStatesGo]
    by_cases hgt : max - min > 1
    · rw [if_pos hgt]
      cases hc : cmpInt (ts ((min + max) / 2)) t
      all_goals dsimp only
      · refine List.Pairwise.cons ?_ (ih ((min + max) / 2) max)
        intro s hmem
        have := searchStatesGo_subinterval ts t f ((min + max) / 2) max (by omega) s hmem
        omega
      · refine List.Pairwise.cons ?_ (by simp)
        intro s hmem
        simp only [List.mem_singleton] at hmem
        subst hmem
        omega
      · refine List.Pairwise.cons ?_ (ih min ((min + max) / 2))
        intro s hmem
        have := searchStatesGo_subinterval ts t f min ((min + max) / 2) (by omega) s hmem
        omega
    · rw [if_neg hgt]
      simp

/-- C10: for every series (sorted or not) and every query time, the search in
`get_value_at` is safe and total: every interval state keeps `min ≤ max`
(so the `usize` subtraction `max - min` cannot underflow) with `max` below the
vector length (so every computed index `(min + max) / 2` and the final read
`data[min]` are in bounds), the interval width strictly shrinks from each
state to every later one (the loop terminates), and any fuel of at least
`max - min` steps yields the very same result as the loop itself. -/
theorem get_value_at_search_safety (data : List DataPoint) (t : Int)
    (hne : data ≠ []) :
    (∀ s ∈ searchLoopStates (tsAt data) t 0 (data.length - 1),
        s.1 ≤ s.2 ∧ s.2 < data.length ∧ (s.1 + s.2) / 2 < data.length) ∧
    List.Pairwise (fun a b : Nat × Nat => b.2 - b.1 < a.2 - a.1)
      (searchLoopStates (tsAt data) t 0 (data.length - 1)) ∧
    searchLoop (tsAt data) t 0 (data.length - 1) < data.length ∧
    (∀ fuel, data.length - 1 ≤ fuel →
      searchGo (tsAt data) t fuel 0 (data.length - 1) =
        searchLoop (tsAt data) t 0 (data.length - 1)) := by
  have hlen : 1 ≤ data.length := by
    cases data with
    | nil => simp at hne
    | cons a l => simp
  refine ⟨?_, ?_, ?_, ?_⟩
  · intro s hmem
    have := searchStatesGo_subinterval (tsAt data) t (data.length - 1) 0
      (data.length - 1) (by omega) s hmem
    omega
  · exact searchStatesGo_shrinking (tsAt data) t (data.length - 1) 0 (data.length - 1)
  · have hb := searchGo_bounds (tsAt data) t (data.length - 1) 0 (data.length - 1) (by omega)
    have heq : searchLoop (tsAt data) t 0 (data.length - 1) =
        searchGo (tsAt data) t (data.length - 1) 0 (data.length - 1) := rfl
    omega
  · intro fuel hfuel
    exact searchGo_congr (tsAt data) t fuel (data.length - 1) 0 (data.length - 1)
      (by omega) (by omega)

theorem get_value_at_search_safety_witness :
    (∀ s ∈ searchLoopStates
        (tsAt [⟨9, some (DataValue.Integer 4), DataQuality.Good 0⟩,
               ⟨11, none, DataQuality.Bad 0⟩,
               ⟨15, some (DataValue.Text "x"), DataQuality.Good 0⟩]) 12 0 2,
        s.1 ≤ s.2 ∧ s.2 < 3 ∧ (s.1 + s.2) / 2 < 3) ∧
    List.Pairwise (fun a b : Nat × Nat => b.2 - b.1 < a.2 - a.1)
      (searchLoopStates
        (tsAt [⟨9, some (DataValue.Integer 4), DataQuality.Good 0⟩,
               ⟨11, none, DataQuality.Bad 0⟩,
               ⟨15, some (DataValue.Text "x"), DataQuality.Good 0⟩]) 12 0 2) ∧
    searchLoop
        (tsAt [⟨9, some (DataValue.Integer 4), DataQuality.Good 0⟩,
               ⟨11, none, DataQuality.Bad 0⟩,
               ⟨15, some (DataValue.Text "x"), DataQuality.Good 0⟩]) 12 0 2 < 3 ∧
    (∀ fuel, 2 ≤ fuel →
      searchGo
        (tsAt [⟨9, some (DataValue.Integer 4), DataQuality.Good 0⟩,
               ⟨11, none, DataQuality.Bad 0⟩,
               ⟨15, some (DataValue.Text "x"), DataQuality.Good 0⟩]) 12 fuel 0 2 =
      searchLoop
        (tsAt [⟨9, some (DataValue.Integer 4), DataQuality.Good 0⟩,
               ⟨11, none, DataQuality.Bad 0⟩,
               ⟨15, some (DataValue.Text "x"), DataQuality.Good 0⟩]) 12 0 2) :=
  get_value_at_search_safety
    [⟨9, some (DataValue.Integer 4), DataQuality.Good 0⟩,
     ⟨11, none, DataQuality.Bad 0⟩,
     ⟨15, some (DataValue.Text "x"), DataQuality.Good 0⟩] 12 (by decide)

end TsCore

namespace TsCore

/-- Two-sample, ascending, distinct-valued series used to exhibit the
binary-search boundary defect. -/
def serC1 : DataSeries :=
  ⟨⟨"131-FT-001.PV", none, none, none, [], []⟩,
   [⟨10, some (DataValue.Integer 1), DataQuality.Good 192⟩,
    ⟨20, some (DataValue.Integer 2), DataQuality.Good 192⟩]⟩

/-- C1 (code bug): on the sorted two-sample series `serC1` (timestamps 10, 20),
a query at or after the last timestamp returns the FIRST sample's value, not
the last sample's: with `min = 0`, `max = 1` the guard `max - min > 1` fails
immediately and `data[min] = data[0]` is returned, so `data[len - 1]` is
unreachable for every series of length ≥ 2. -/
theorem c1_last_value_bug :
    sortedByTs serC1.data ∧
    serC1.data.getLast? = some ⟨20, some (DataValue.Integer 2), DataQuality.Good 192⟩ ∧
    get_value_at serC1 20 = some (DataValue.Integer 1) ∧
    get_value_at serC1 99 = some (DataValue.Integer 1) ∧
    get_value_at serC1 20 ≠ some (DataValue.Integer 2) := by decide

/-- Two-sample, ascending, distinct-valued series for the exact-match defect. -/
def serC4 : DataSeries :=
  ⟨⟨"FL001.State", none, none, none, [], []⟩,
   [⟨0, some (DataValue.Text "a"), DataQuality.Good 192⟩,
    ⟨5, some (DataValue.Text "b"), DataQuality.Good 192⟩]⟩

/-- C4 (code bug): on the sorted series `serC4`, querying exactly at
`samples[1].timestamp = 5` (the last index) returns `samples[0].value`, not
`samples[1].value`: the loop never compares `data[max]`, so an exact hit on
the last sample is missed. -/
theorem c4_exact_match_bug :
    sortedByTs serC4.data ∧
    (serC4.data.getD 1 dfltDP).timestamp = 5 ∧
    (serC4.data.getD 1 dfltDP).value = some (DataValue.Text "b") ∧
    get_value_at serC4 5 = some (DataValue.Text "a") ∧
    get_value_at serC4 5 ≠ (serC4.data.getD 1 dfltDP).value := by decide

/-- C8: coercing raw samples to the integer target type
(`From<&TagItem> for Vec<DataPoint2<i32>>`): a text value that parses as an
integer coerces to that integer, a text value that fails to parse coerces to
absent (no exception: the function is total), a float coerces by
round-to-nearest (ties away from zero; stated here for results inside the
`i32` range, where the saturating `as i32` cast is the identity), and an
absent raw value stays absent. -/
theorem tagItemToI32_coercion (tg : WireTag) (a b c d : Int) (q : ℚ)
    (h1 : -2147483648 ≤ ratRound q) (h2 : ratRound q ≤ 2147483647) :
    tagItemToI32 ⟨tg, [⟨a, some (TagValue.Text "42"), 192⟩,
                       ⟨b, some (TagValue.Text "abc"), 192⟩,
                       ⟨c, some (TagValue.Float q), 192⟩,
                       ⟨d, none, 192⟩]⟩ =
      [⟨a, some 42⟩, ⟨b, none⟩, ⟨c, some (ratRound q)⟩, ⟨d, none⟩] := by
  have h42 : parseI32 "42" = some 42 := by decide
  have habc : parseI32 "abc" = none := by decide
  have hsat : i32Sat (ratRound q) = ratRound q := by
    unfold i32Sat
    rw [if_neg (by omega), if_neg (by omega)]
  simp [tagItemToI32, coerceI32, h42, habc, hsat]

theorem tagItemToI32_coercion_witness :
    tagItemToI32 ⟨⟨"131-FQ-001.PV", none, none, none, none, none⟩,
      [⟨0, some (TagValue.Text "42"), 192⟩,
       ⟨1, some (TagValue.Text "abc"), 192⟩,
       ⟨2, some (TagValue.Float (mkRat 7 3)), 192⟩,
       ⟨3, none, 192⟩]⟩ =
      [⟨0, some 42⟩, ⟨1, none⟩, ⟨2, some (ratRound (mkRat 7 3))⟩, ⟨3, none⟩] :=
  tagItemToI32_coercion ⟨"131-FQ-001.PV", none, none, none, none, none⟩
    0 1 2 3 (mkRat 7 3) (by decide) (by decide)

end TsCore

namespace TsCore

/-! ## Aligner: supporting definitions and lemmas -/

/-- Pair list sorted ascending by sample timestamp (the state of `dp` after
`main.rs:70`). -/
abbrev sortedPairs (l : List (Nat × DataPoint)) : Prop :=
  List.Pairwise (fun a b => a.2.timestamp ≤ b.2.timestamp) l

/-- The samples of tag position `k`, in list order. -/
def proj (k : Nat) : List (Nat × DataPoint) → List DataPoint
  | [] => []
  | p :: ps => if p.1 = k then p.2 :: proj k ps else proj k ps

/-- Stable insertion of one sample by timestamp (counterpart of `insertPair`
on bare samples). -/
def dpInsert (d : DataPoint) : List DataPoint → List DataPoint
  | [] => [d]
  | e :: es => if d.timestamp ≤ e.timestamp then d :: e :: es else e :: dpInsert d es

/-- Stable insertion sort of samples by timestamp. -/
def dpSort : List DataPoint → List DataPoint
  | [] => []
  | d :: ds => dpInsert d (dpSort ds)

/-- The value of the last pair with tag position `k` in the list, else `c`. -/
def lastPairValue : Option DataValue → Nat → List (Nat × DataPoint) → Option DataValue
  | c, _, [] => c
  | c, k, p :: ps => lastPairValue (if p.1 = k then p.2.value else c) k ps

/-- The value of the last sample of the list, else `c`. -/
def lastValueOr (c : Option DataValue) (l : List DataPoint) : Option DataValue :=
  match l.getLast? with
  | none => c
  | some d => d.value

theorem mem_insertPair (p q : Nat × DataPoint) :
    ∀ l, q ∈ insertPair p l ↔ q = p ∨ q ∈ l := by
  intro l
  induction l with
  | nil => simp [insertPair]
  | cons r rs ih =>
    simp only [insertPair]
    split
    · simp only [List.mem_cons]
    · simp only [List.mem_cons, ih]
      tauto

theorem mem_sortPairs (q : Nat × DataPoint) :
    ∀ l, q ∈ sortPairs l ↔ q ∈ l := by
  intro l
  induction l with
  | nil => simp [sortPairs]
  | cons p ps ih =>
    simp only [sortPairs, mem_insertPair, ih, List.mem_cons]

theorem sortedPairs_insertPair (p : Nat × DataPoint) :
    ∀ l, sortedPairs l → sortedPairs (insertPair p l) := by
  intro l
  induction l with
  | nil =>
    intro _
    simp [insertPair]
  | cons r rs ih =>
    intro h
    rcases List.pairwise_cons.mp h with ⟨hall, htail⟩
    simp only [insertPair]
    split
    · rename_i hle
      refine List.Pairwise.cons ?_ h
      intro x hx
      rcases List.mem_cons.mp hx with rfl | hx
      · exact hle
      · exact le_trans hle (hall x hx)
    · rename_i hgt
      refine List.Pairwise.cons ?_ (ih htail)
      intro x hx
      rcases (mem_insertPair p x rs).mp hx with rfl | hx
      · omega
      · exact hall x hx

theorem sortPairs_sorted : ∀ l, sortedPairs (sortPairs l) := by
  intro l
  induction l with
  | nil => simp [sortPairs]
  | cons p ps ih => exact sortedPairs_insertPair p _ ih

theorem flattenFrom_mem_idx : ∀ (ss : List DataSeries) (i : Nat) (q : Nat × DataPoint),
    q ∈ flattenFrom i ss → i ≤ q.1 ∧ q.1 < i + ss.length := by
  intro ss
  induction ss with
  | nil =>
    intro i q hq
    simp [flattenFrom] at hq
  | cons s rest ih =>
    intro i q hq
    simp only [flattenFrom, List.mem_append, List.mem_map] at hq
    rcases hq with ⟨d, _, rfl⟩ | hq
    · dsimp only
      simp only [List.length_cons]
      omega
    · have := ih (i + 1) q hq
      simp only [List.length_cons]
      omega

theorem proj_append (k : Nat) :
    ∀ l₁ l₂, proj k (l₁ ++ l₂) = proj k l₁ ++ proj k l₂ := by
  intro l₁ l₂
  induction l₁ with
  | nil => rfl
  | cons p ps ih =>
    rw [List.cons_append]
    show (if p.1 = k then p.2 :: proj k (ps ++ l₂) else proj k (ps ++ l₂)) =
      (if p.1 = k then p.2 :: proj k ps else proj k ps) ++ proj k l₂
    split
    · rw [ih, List.cons_append]
    · exact ih

theorem proj_map_self (i : Nat) :
    ∀ l : List DataPoint, proj i (l.map (fun d => (i, d))) = l := by
  intro l
  induction l with
  | nil => rfl
  | cons d ds ih =>
    simp only [List.map_cons, proj, if_pos]
    rw [ih]

theorem proj_map_ne (i k : Nat) (h : k ≠ i) :
    ∀ l : List DataPoint, proj k (l.map (fun d => (i, d))) = [] := by
  intro l
  induction l with
  | nil => rfl
  | cons d ds ih =>
    simp only [List.map_cons, proj]
    rw [if_neg (by omega), ih]

theorem proj_flattenFrom_lt : ∀ (rest : List DataSeries) (i k : Nat), k < i →
    proj k (flattenFrom i rest) = [] := by
  intro rest
  induction rest with
  | nil => intro i k _; rfl
  | cons s ss ih =>
    intro i k hk
    show proj k (s.data.map (fun d => (i, d)) ++ flattenFrom (i + 1) ss) = []
    rw [proj_append, proj_map_ne i k (by omega), ih (i + 1) k (by omega)]
    rfl

theorem proj_flattenFrom : ∀ (ss : List DataSeries) (i j : Nat), j < ss.length →
    proj (i + j) (flattenFrom i ss) = (ss.getD j dfltSeries).data := by
  intro ss
  induction ss with
  | nil =>
    intro i j h
    simp at h
  | cons s rest ih =>
    intro i j hj
    cases j with
    | zero =>
      show proj (i + 0) (s.data.map (fun d => (i, d)) ++ flattenFrom (i + 1) rest) =
        ((s :: rest).getD 0 dfltSeries).data
      rw [Nat.add_zero, proj_append, proj_map_self,
        proj_flattenFrom_lt rest (i + 1) i (by omega), List.append_nil]
      rfl
    | succ j' =>
      show proj (i + (j' + 1)) (s.data.map (fun d => (i, d)) ++ flattenFrom (i + 1) rest) =
        ((s :: rest).getD (j' + 1) dfltSeries).data
      rw [proj_append, proj_map_ne i (i + (j' + 1)) (by omega)]
      have harith : i + (j' + 1) = (i + 1) + j' := by omega
      rw [harith, List.nil_append, ih (i + 1) j' (by simpa using hj)]
      rfl

theorem mem_proj (k : Nat) (e : DataPoint) :
    ∀ l, e ∈ proj k l ↔ (k, e) ∈ l := by
  intro l
  induction l with
  | nil => simp [proj]
  | cons p ps ih =>
    obtain ⟨j, d⟩ := p
    simp only [proj]
    by_cases hk : j = k
    · subst hk
      rw [if_pos rfl]
      simp only [List.mem_cons, ih, Prod.mk.injEq, true_and]
    · rw [if_neg hk]
      rw [ih]
      simp only [List.mem_cons, Prod.mk.injEq]
      constructor
      · intro h
        exact Or.inr h
      · rintro (⟨h1, _⟩ | h)
        · exact absurd h1.symm hk
        · exact h

theorem dpInsert_of_le (d : DataPoint) :
    ∀ l, (∀ e ∈ l, d.timestamp ≤ e.timestamp) → dpInsert d l = d :: l := by
  intro l h
  cases l with
  | nil => rfl
  | cons e es =>
    simp only [dpInsert]
    rw [if_pos (h e (List.mem_cons_self e es))]

theorem dpSort_sorted_id : ∀ l, sortedByTs l → dpSort l = l := by
  intro l
  induction l with
  | nil => intro _; rfl
  | cons d ds ih =>
    intro h
    rcases List.pairwise_cons.mp h with ⟨hall, htail⟩
    show dpInsert d (dpSort ds) = d :: ds
    rw [ih htail]
    exact dpInsert_of_le d ds hall

theorem proj_insertPair (k : Nat) (p : Nat × DataPoint) :
    ∀ l, sortedPairs l →
      proj k (insertPair p l) =
        if p.1 = k then dpInsert p.2 (proj k l) else proj k l := by
  intro l
  induction l with
  | nil =>
    intro _
    show proj k [p] = if p.1 = k then dpInsert p.2 (proj k []) else proj k []
    simp only [proj, dpInsert]
  | cons r rs ih =>
    intro h
    rcases List.pairwise_cons.mp h with ⟨hall, htail⟩
    simp only [insertPair]
    by_cases hle : p.2.timestamp ≤ r.2.timestamp
    · rw [if_pos hle]
      show (if p.1 = k then p.2 :: proj k (r :: rs) else proj k (r :: rs)) =
        if p.1 = k then dpInsert p.2 (proj k (r :: rs)) else proj k (r :: rs)
      by_cases hk : p.1 = k
      · rw [if_pos hk, if_pos hk]
        rw [dpInsert_of_le]
        intro e he
        have hmem := (mem_proj k e (r :: rs)).mp he
        rcases List.mem_cons.mp hmem with heq | hmem2
        · have : e = r.2 := by rw [← heq]
          rw [this]
          exact hle
        · exact le_trans hle (hall _ hmem2)
      · rw [if_neg hk, if_neg hk]
    · rw [if_neg hle]
      show proj k (r :: insertPair p rs) =
        if p.1 = k then dpInsert p.2 (proj k (r :: rs)) else proj k (r :: rs)
      by_cases hrk : r.1 = k
      · simp only [proj, if_pos hrk, ih htail]
        by_cases hk : p.1 = k
        · rw [if_pos hk, if_pos hk]
          show r.2 :: dpInsert p.2 (proj k rs) = dpInsert p.2 (r.2 :: proj k rs)
          rw [dpInsert]
          rw [if_neg hle]
        · rw [if_neg hk, if_neg hk]
      · simp only [proj, if_neg hrk, ih htail]
    
theorem proj_sortPairs (k : Nat) :
    ∀ l, proj k (sortPairs l) = dpSort (proj k l) := by
  intro l
  induction l with
  | nil => rfl
  | cons p ps ih =>
    show proj k (insertPair p (sortPairs ps)) = dpSort (proj k (p :: ps))
    rw [proj_insertPair k p _ (sortPairs_sorted ps)]
    by_cases hk : p.1 = k
    · rw [if_pos hk, ih]
      show dpInsert p.2 (dpSort (proj k ps)) = dpSort (proj k (p :: ps))
      simp only [proj, if_pos hk, dpSort]
    · rw [if_neg hk, ih]
      simp only [proj, if_neg hk]

theorem proj_filter (k : Nat) (t : Int) :
    ∀ l, proj k (l.filter (fun p => p.2.timestamp ≤ t)) =
      (proj k l).filter (fun d => d.timestamp ≤ t) := by
  intro l
  induction l with
  | nil => rfl
  | cons p ps ih =>
    by_cases hts : p.2.timestamp ≤ t
    · rw [List.filter_cons_of_pos (by simpa using hts)]
      by_cases hk : p.1 = k
      · simp only [proj, if_pos hk]
        rw [List.filter_cons_of_pos (by simpa using hts), ih]
      · simp only [proj, if_neg hk]
        exact ih
    · rw [List.filter_cons_of_neg (by simpa using hts)]
      by_cases hk : p.1 = k
      · simp only [proj, if_pos hk]
        rw [List.filter_cons_of_neg (by simpa using hts), ih]
      · simp only [proj, if_neg hk]
        exact ih

theorem lastValueOr_cons (c : Option DataValue) (d : DataPoint) (l : List DataPoint) :
    lastValueOr c (d :: l) = lastValueOr d.value l := by
  cases l with
  | nil => rfl
  | cons e es =>
    show lastValueOr c (d :: e :: es) = lastValueOr d.value (e :: es)
    unfold lastValueOr
    rw [List.getLast?_cons_cons]
    cases hg : (e :: es).getLast? with
    | none => exact absurd (List.getLast?_eq_none_iff.mp hg) (by simp)
    | some x => rfl

theorem lastPairValue_eq (k : Nat) :
    ∀ l c, lastPairValue c k l = lastValueOr c (proj k l) := by
  intro l
  induction l with
  | nil => intro c; rfl
  | cons p ps ih =>
    intro c
    show lastPairValue (if p.1 = k then p.2.value else c) k ps =
      lastValueOr c (proj k (p :: ps))
    by_cases hk : p.1 = k
    · rw [if_pos hk, ih]
      simp only [proj, if_pos hk]
      rw [lastValueOr_cons]
    · rw [if_neg hk, ih]
      simp only [proj, if_neg hk]

theorem getD_set_self (l : List (Option DataValue)) (i : Nat) (a : Option DataValue)
    (h : i < l.length) : (l.set i a).getD i none = a := by
  rw [List.getD_eq_getElem?_getD, List.getElem?_set_self h]
  rfl

theorem getD_set_ne (l : List (Option DataValue)) (i j : Nat) (a : Option DataValue)
    (h : i ≠ j) : (l.set i a).getD j none = l.getD j none := by
  rw [List.getD_eq_getElem?_getD, List.getD_eq_getElem?_getD, List.getElem?_set_ne h]

theorem getD_replicate_none (n k : Nat) :
    (List.replicate n (none : Option DataValue)).getD k none = none := by
  rw [List.getD_eq_getElem?_getD, List.getElem?_replicate]
  split <;> rfl

theorem getD_mem_of_lt (l : List DataSeries) (k : Nat) (d : DataSeries)
    (h : k < l.length) : l.getD k d ∈ l := by
  rw [List.getD_eq_getElem?_getD, List.getElem?_eq_getElem h]
  exact List.getElem_mem h

end TsCore

namespace TsCore

/-- Invariant of the aligner sweep: any row in the fold's output either was
already present, or (i) keeps the width of the running `last_values` vector,
(ii) has a timestamp no earlier than the sweep's entry pending timestamp or
some processed pair, and (iii) holds, at every tag position `k`, the value of
the last processed pair of tag `k` with timestamp at most the row's own
(falling back to the entry value of slot `k`). -/
theorem alignLoop_invariant :
    ∀ (pairs : List (Nat × DataPoint)), sortedPairs pairs →
      ∀ (rows : List AlignedRow) (pending : Int) (cur : List (Option DataValue)),
        (∀ q ∈ pairs, q.1 < cur.length) →
        ∀ r ∈ (pairs.foldl alignLoop (rows, pending, cur)).1,
          r ∈ rows ∨
            (r.values.length = cur.length ∧
             (pending ≤ r.timestamp ∨ ∃ q ∈ pairs, q.2.timestamp ≤ r.timestamp) ∧
             ∀ k, r.values.getD k none =
               lastPairValue (cur.getD k none) k
                 (pairs.filter (fun q => q.2.timestamp ≤ r.timestamp))) := by
  intro pairs
  induction pairs with
  | nil =>
    intro _ rows pending cur _ r hr
    exact Or.inl hr
  | cons p ps ih =>
    intro hs rows pending cur hb r hr
    rcases List.pairwise_cons.mp hs with ⟨hall, htail⟩
    rw [List.foldl_cons] at hr
    dsimp only [alignLoop] at hr
    have hb' : ∀ q ∈ ps, q.1 < (cur.set p.1 p.2.value).length := by
      intro q hq
      rw [List.length_set]
      exact hb q (List.mem_cons_of_mem _ hq)
    have hres := ih htail _ p.2.timestamp (cur.set p.1 p.2.value) hb' r hr
    rcases hres with hmem | ⟨hlen, hts, hvals⟩
    · -- the row existed before the fold over `ps`
      by_cases hpend : pending < p.2.timestamp
      · rw [if_pos hpend] at hmem
        rcases List.mem_append.mp hmem with h | h
        · exact Or.inl h
        · simp only [List.mem_singleton] at h
          subst h
          right
          refine ⟨rfl, Or.inl (le_refl _), ?_⟩
          intro k
          have hfil : (p :: ps).filter
              (fun q => q.2.timestamp ≤ (⟨pending, cur⟩ : AlignedRow).timestamp) = [] := by
            rw [List.filter_eq_nil_iff]
            intro q hq
            simp only [decide_eq_true_eq]
            rcases List.mem_cons.mp hq with rfl | hq
            · show ¬(q.2.timestamp ≤ pending)
              omega
            · have := hall q hq
              show ¬(q.2.timestamp ≤ pending)
              omega
          rw [hfil]
          rfl
      · rw [if_neg hpend] at hmem
        exact Or.inl hmem
    · -- the row was emitted during the fold over `ps`
      right
      rw [List.length_set] at hlen
      have hp_le : p.2.timestamp ≤ r.timestamp := by
        rcases hts with h | ⟨q, hq, hqle⟩
        · exact h
        · exact le_trans (hall q hq) hqle
      refine ⟨hlen, Or.inr ⟨p, List.mem_cons_self p ps, hp_le⟩, ?_⟩
      intro k
      have h := hvals k
      rw [List.filter_cons_of_pos (by simpa using hp_le)]
      show r.values.getD k none =
        lastPairValue (if p.1 = k then p.2.value else cur.getD k none) k
          (ps.filter (fun q => q.2.timestamp ≤ r.timestamp))
      by_cases hk : p.1 = k
      · subst hk
        rw [if_pos rfl]
        rw [getD_set_self cur p.1 p.2.value (hb p (List.mem_cons_self p ps))] at h
        exact h
      · rw [if_neg hk]
        rw [getD_set_ne cur p.1 k p.2.value hk] at h
        exact h

/-- C3 (amended): on sorted input, every row `align` emits has a value vector
with exactly `len(seriesList)` entries indexed by tag position, and the entry
at position `k` is the value of tag `k`'s last sample with timestamp at most
the row's timestamp (absent if there is none): rows forward-fill, so a value
may repeat across consecutive rows and the samples after the final emitted
row never appear. -/
theorem align_rows_forward_fill (start : Int) (series : List DataSeries)
    (hs : ∀ s ∈ series, sortedByTs s.data) :
    ∀ r ∈ align start series,
      r.values.length = series.length ∧
      ∀ k, k < series.length →
        r.values.getD k none =
          lastValueOr none
            (((series.getD k dfltSeries).data).filter
              (fun d => d.timestamp ≤ r.timestamp)) := by
  intro r hr
  unfold align at hr
  have hb : ∀ q ∈ sortPairs (flattenFrom 0 series),
      q.1 < (List.replicate series.length (none : Option DataValue)).length := by
    intro q hq
    rw [List.length_replicate]
    have hq' := (mem_sortPairs q _).mp hq
    have := flattenFrom_mem_idx series 0 q hq'
    omega
  have hmain := alignLoop_invariant _ (sortPairs_sorted _) [] start _ hb r hr
  rcases hmain with hfalse | ⟨hlen, _, hvals⟩
  · simp at hfalse
  · refine ⟨by simpa using hlen, ?_⟩
    intro k hk
    have h1 := hvals k
    rw [getD_replicate_none] at h1
    rw [h1, lastPairValue_eq, proj_filter]
    have hproj : proj k (sortPairs (flattenFrom 0 series)) =
        (series.getD k dfltSeries).data := by
      rw [proj_sortPairs]
      have hp : proj k (flattenFrom 0 series) = (series.getD k dfltSeries).data := by
        have := proj_flattenFrom series 0 k hk
        simpa using this
      rw [hp]
      exact dpSort_sorted_id _ (hs _ (getD_mem_of_lt series k dfltSeries hk))
    rw [hproj]

/-- Scenario-A series: Tag1 with integer samples 1 at t=0 and 3 at t=2. -/
def serScA : DataSeries :=
  ⟨⟨"Tag1", none, none, none, [], []⟩,
   [⟨0, some (DataValue.Integer 1), DataQuality.Good 192⟩,
    ⟨2, some (DataValue.Integer 3), DataQuality.Good 192⟩]⟩

/-- Scenario-A series: Tag2 with the text sample "on" at t=1. -/
def serScB : DataSeries :=
  ⟨⟨"Tag2", none, none, none, [], []⟩,
   [⟨1, some (DataValue.Text "on"), DataQuality.Good 192⟩]⟩

/-- The sequence of non-absent values at tag position `k` across rows, in row
order (the claim's per-position subsequence). -/
def rowValuesAtPos (k : Nat) (rows : List AlignedRow) : List DataValue :=
  rows.filterMap (fun r => r.values.getD k none)

/-- A tag's own sample values, in sample order. -/
def seriesValues (s : DataSeries) : List DataValue :=
  s.data.filterMap (fun d => d.value)

/-- C3 counterexample: on the spec's own Scenario A (two sorted series), the
non-absent values at tag position 0 across the emitted rows are `[1, 1]`
(the forward-filled value repeats and the final sample 3 is never emitted),
which differs from Tag1's own sample values `[1, 3]`. -/
theorem align_value_subsequence_cex :
    sortedByTs serScA.data ∧ sortedByTs serScB.data ∧
    align 0 [serScA, serScB] =
      [⟨0, [some (DataValue.Integer 1), none]⟩,
       ⟨1, [some (DataValue.Integer 1), some (DataValue.Text "on")]⟩] ∧
    rowValuesAtPos 0 (align 0 [serScA, serScB]) =
      [DataValue.Integer 1, DataValue.Integer 1] ∧
    seriesValues serScA = [DataValue.Integer 1, DataValue.Integer 3] ∧
    rowValuesAtPos 0 (align 0 [serScA, serScB]) ≠ seriesValues serScA := by decide

theorem align_rows_forward_fill_witness :
    (⟨1, [some (DataValue.Integer 1), some (DataValue.Text "on")]⟩ : AlignedRow).values.length =
        [serScA, serScB].length ∧
    ∀ k, k < [serScA, serScB].length →
      (⟨1, [some (DataValue.Integer 1), some (DataValue.Text "on")]⟩ : AlignedRow).values.getD
          k none =
        lastValueOr none
          ((([serScA, serScB].getD k dfltSeries).data).filter
            (fun d => d.timestamp ≤
              (⟨1, [some (DataValue.Integer 1), some (DataValue.Text "on")]⟩ :
                AlignedRow).timestamp)) :=
  align_rows_forward_fill 0 [serScA, serScB] (by decide)
    ⟨1, [some (DataValue.Integer 1), some (DataValue.Text "on")]⟩ (by decide)

/-- Every nonempty pair list has a last element, and it is a member. -/
theorem getLast?_mem_self :
    ∀ l : List (Nat × DataPoint), l ≠ [] → ∃ lp, l.getLast? = some lp ∧ lp ∈ l := by
  intro l
  induction l with
  | nil => intro h; exact absurd rfl h
  | cons p ps ih =>
    intro _
    cases ps with
    | nil => exact ⟨p, rfl, List.mem_cons_self p []⟩
    | cons q qs =>
      obtain ⟨lp, h1, h2⟩ := ih (by simp)
      refine ⟨lp, ?_, List.mem_cons_of_mem _ h2⟩
      rw [List.getLast?_cons_cons]
      exact h1

/-- Rows emitted while sweeping a sorted pair list are strictly earlier than
the last pair's timestamp. -/
theorem alignLoop_rows_before_last :
    ∀ (pairs : List (Nat × DataPoint)), sortedPairs pairs →
      ∀ (st : List AlignedRow × Int × List (Option DataValue)) r,
        r ∈ (pairs.foldl alignLoop st).1 →
        r ∈ st.1 ∨ ∃ lp, pairs.getLast? = some lp ∧ r.timestamp < lp.2.timestamp := by
  intro pairs
  induction pairs with
  | nil =>
    intro _ st r hr
    exact Or.inl hr
  | cons p ps ih =>
    intro hs st r hr
    rcases List.pairwise_cons.mp hs with ⟨hall, htail⟩
    obtain ⟨rows, pending, cur⟩ := st
    rw [List.foldl_cons] at hr
    have hstep := ih htail (alignLoop (rows, pending, cur) p) r hr
    rcases hstep with hmem | ⟨lp, hlast, hlt⟩
    · dsimp only [alignLoop] at hmem
      by_cases hpend : pending < p.2.timestamp
      · rw [if_pos hpend] at hmem
        rcases List.mem_append.mp hmem with h | h
        · exact Or.inl h
        · simp only [List.mem_singleton] at h
          subst h
          right
          obtain ⟨lp, h1, h2⟩ := getLast?_mem_self (p :: ps) (by simp)
          refine ⟨lp, h1, ?_⟩
          rcases List.mem_cons.mp h2 with rfl | h2
          · exact hpend
          · have := hall lp h2
            show pending < lp.2.timestamp
            omega
      · rw [if_neg hpend] at hmem
        exact Or.inl hmem
    · right
      cases ps with
      | nil => simp at hlast
      | cons q qs =>
        refine ⟨lp, ?_, hlt⟩
        rw [List.getLast?_cons_cons]
        exact hlast

/-- C6: the final accumulated state of the aligner sweep is never emitted:
every emitted row's timestamp is strictly earlier than the timestamp of the
last `(tagIndex, sample)` pair of the sorted flattened sequence (a row is
emitted only when a strictly later pair arrives, and nothing arrives after
the last pair). -/
theorem align_no_final_row (start : Int) (series : List DataSeries)
    (r : AlignedRow) (hr : r ∈ align start series) (lp : Nat × DataPoint)
    (hlast : (sortPairs (flattenFrom 0 series)).getLast? = some lp) :
    r.timestamp < lp.2.timestamp := by
  unfold align at hr
  have hinv := alignLoop_rows_before_last _ (sortPairs_sorted _)
    ([], start, List.replicate series.length (none : Option DataValue)) r hr
  rcases hinv with h | ⟨lp', h1, h2⟩
  · simp at h
  · rw [hlast] at h1
    injection h1 with h1
    rw [h1]
    exact h2

theorem align_no_final_row_witness :
    (⟨1, [some (DataValue.Integer 1), some (DataValue.Text "on")]⟩ : AlignedRow).timestamp <
      ((0, (⟨2, some (DataValue.Integer 3), DataQuality.Good 192⟩ : DataPoint)) :
        Nat × DataPoint).2.timestamp :=
  align_no_final_row 0 [serScA, serScB]
    ⟨1, [some (DataValue.Integer 1), some (DataValue.Text "on")]⟩ (by decide)
    (0, ⟨2, some (DataValue.Integer 3), DataQuality.Good 192⟩) (by decide)

end TsCore
